import Mathlib

/-!
Shallow embedding of the BockQSC1090 pulse engine
(`src/pulse_engine/*.py` and the statevector runner
`src/run_custom_algorithm.py`).

Numeric values that the Python code holds in floats are modelled as exact
rationals (`ℚ`); the transcendental sample values (`math.cos`, `math.exp`)
live in `ℝ`.  Python dictionaries keyed by channel id are modelled as total
functions `String → ℚ` with the dictionary's `get`-default built in.
-/

/-- Python builtin `round` on an exact value: round half to even. -/
def pyRound (x : ℚ) : ℤ :=
  let f := ⌊x⌋
  let r := x - (f : ℚ)
  if r < 1/2 then f
  else if 1/2 < r then f + 1
  else if f % 2 = 0 then f else f + 1

/-- Python builtin `int` on an exact value: truncation toward zero. -/
def pyInt (x : ℚ) : ℤ := if 0 ≤ x then ⌊x⌋ else ⌈x⌉

/-- `max(0.0, min(1.0, x))` from `Pulse.sample`. -/
noncomputable def clamp01 (x : ℝ) : ℝ := max 0 (min 1 x)

/-- `pulse.py`: dataclass `Pulse`.  `waveform` is an optional callable on
normalized time, exactly as in the source. -/
structure Pulse where
  name : String
  duration : ℚ
  amplitude : ℚ := 1
  phase : ℚ := 0
  waveform : Option (ℝ → ℝ) := none
  channel : String := "d0"

/-- `pulse.py`: `constant_wave`. -/
def constant_wave : ℝ → ℝ := fun _ => 1

/-- `pulse.py`: `gaussian_wave` with its default `sigma = 0.15`. -/
noncomputable def gaussian_wave (x : ℝ) (sigma : ℝ := 0.15) : ℝ :=
  Real.exp (-(x - 0.5) ^ 2 / (2 * sigma ^ 2))

/-- `pulse.py`: `Pulse.sample(t)`:
`amplitude * w * cos(phase)` where `w = waveform(max(0, min(1, t / max(1e-12, duration))))`
when a waveform is set and `w = 1.0` otherwise. -/
noncomputable def Pulse.sample (p : Pulse) (t : ℚ) : ℝ :=
  let w : ℝ :=
    match p.waveform with
    | some f => f (clamp01 ((t : ℝ) / max (1e-12) (p.duration : ℝ)))
    | none => 1
  (p.amplitude : ℝ) * w * Real.cos (p.phase : ℝ)

/-- `scheduler.py`: dataclass `ScheduledPulse`. -/
structure ScheduledPulse where
  pulse : Pulse
  start_time : ℚ
  end_time : ℚ

/-- `scheduler.py`: the loop body of `PulseScheduler.schedule`, with the
`channel_end_times` dictionary (default value `0.0`) made explicit. -/
def scheduleAux (clock : ℚ) (channel_end_times : String → ℚ) :
    List Pulse → List ScheduledPulse
  | [] => []
  | p :: rest =>
    let last_end := channel_end_times p.channel
    let start : ℚ := (pyRound (last_end / clock) : ℚ) * clock
    let e := start + p.duration
    ⟨p, start, e⟩ ::
      scheduleAux clock (fun c => if c = p.channel then e else channel_end_times c) rest

/-- `scheduler.py`: `PulseScheduler.schedule` for a scheduler constructed with
`clock_resolution = clock` (the source default is `1e-9`). -/
def PulseScheduler.schedule (clock : ℚ) (pulses : List Pulse) : List ScheduledPulse :=
  scheduleAux clock (fun _ => 0) pulses

/-- `timing_engine.py`: `align_to_hardware_clock` (the in-place update of each
`ScheduledPulse` is rendered as a map producing the updated records). -/
def align_to_hardware_clock (schedule : List ScheduledPulse) (clock : ℚ) :
    List ScheduledPulse :=
  schedule.map fun sp =>
    { sp with
      start_time := (pyRound (sp.start_time / clock) : ℚ) * clock
      end_time := (pyRound (sp.end_time / clock) : ℚ) * clock }

/-- `waveform_builder.py`: the sample count `max(1, int(duration * sample_rate))`
of `build_waveform`. -/
def numSamples (sp : ScheduledPulse) (sample_rate : ℚ) : ℕ :=
  (max 1 (pyInt (sp.pulse.duration * sample_rate))).toNat

/-- `waveform_builder.py`: the sampling instants
`np.linspace(0, duration, n_samples, endpoint=False)`, i.e. `k * duration / n`. -/
def buildTimes (sp : ScheduledPulse) (sample_rate : ℚ) : List ℚ :=
  (List.range (numSamples sp sample_rate)).map
    fun (k : ℕ) => (k : ℚ) * sp.pulse.duration / (numSamples sp sample_rate : ℚ)

/-- `waveform_builder.py`: `build_waveform` — one `Pulse.sample` per instant. -/
noncomputable def build_waveform (sp : ScheduledPulse) (sample_rate : ℚ) : List ℝ :=
  (buildTimes sp sample_rate).map fun t => sp.pulse.sample t

/-- `pulse_sequence.py`: one entry of `GATE_LIBRARY`. -/
structure GateTemplate where
  duration : ℚ
  amplitude : ℚ
  waveform : Option (ℝ → ℝ)

/-- `pulse_sequence.py`: `GATE_LIBRARY` (durations in seconds, e.g. `20e-9`). -/
def GATE_LIBRARY : List (String × GateTemplate) :=
  [("X", ⟨20/1000000000, 1, some constant_wave⟩),
   ("Y", ⟨20/1000000000, 1, some constant_wave⟩),
   ("H", ⟨30/1000000000, 7/10, some constant_wave⟩),
   ("CNOT", ⟨40/1000000000, 8/10, some constant_wave⟩)]

/-- `pulse_sequence.py`: one circuit instruction `{"gate": ..., "qubit": ...}`. -/
structure Instruction where
  gate : String
  qubit : ℕ

/-- `pulse_sequence.py`: `circuit_to_pulses`.  The Python loop raises
`ValueError(f"Gate {gate} has no pulse template")` at the first unknown gate;
the embedding returns that message in `Except.error`. -/
def circuit_to_pulses : List Instruction → Except String (List Pulse)
  | [] => .ok []
  | inst :: rest =>
    match GATE_LIBRARY.lookup inst.gate with
    | none => .error ("Gate " ++ inst.gate ++ " has no pulse template")
    | some tmpl =>
      match circuit_to_pulses rest with
      | .error e => .error e
      | .ok ps =>
        .ok ({ name := inst.gate ++ "_" ++ toString inst.qubit
             , duration := tmpl.duration
             , amplitude := tmpl.amplitude
             , phase := 0
             , waveform := tmpl.waveform
             , channel := "d" ++ toString inst.qubit } :: ps)

/-- `execution_engine.py`: one record of the `compiled_waveforms.json` schedule
consumed by `PulseExecutor`. -/
structure SRec where
  name : String
  channel : String
  start_time_s : ℚ
  end_time_s : ℚ
  samples : List ℝ

/-- The observable trace of `PulseExecutor.execute`: a `[WAIT]` line or an
`[EXEC]` line (pulse name, `end - start` duration, channel, sample count). -/
inductive Event where
  | wait (gap : ℚ)
  | play (pname : String) (duration : ℚ) (channel : String) (nsamples : ℕ)
  deriving DecidableEq

/-- Stable insertion into a list sorted by `start_time_s` (the inserted record
goes before every already-present record with an equal or larger key). -/
def insertByStart (r : SRec) : List SRec → List SRec
  | [] => [r]
  | x :: xs => if x.start_time_s < r.start_time_s then x :: insertByStart r xs else r :: x :: xs

/-- Stable sort by `start_time_s`; Python's `list.sort(key=...)` is a stable
sort, and every stable sort by one key computes this same list. -/
def sortByStart : List SRec → List SRec
  | [] => []
  | x :: xs => insertByStart x (sortByStart xs)

/-- `execution_engine.py`: `PulseExecutor.load_schedule` after the JSON parse:
`self.schedule.sort(key=lambda p: p["start_time_s"])`. -/
def load_schedule (schedule : List SRec) : List SRec := sortByStart schedule

/-- `execution_engine.py`: the loop of `PulseExecutor.execute` from a given
`current_time`: emit `[WAIT]` when `start > current_time`, then the `[EXEC]`
line, and continue with `current_time = end`. -/
def executeFrom (current_time : ℚ) : List SRec → List Event
  | [] => []
  | p :: rest =>
    (if current_time < p.start_time_s then [Event.wait (p.start_time_s - current_time)] else [])
      ++ Event.play p.name (p.end_time_s - p.start_time_s) p.channel p.samples.length
      :: executeFrom p.end_time_s rest

/-- `execution_engine.py`: `PulseExecutor.execute` (`current_time` starts at `0.0`). -/
def PulseExecutor.execute (schedule : List SRec) : List Event := executeFrom 0 schedule

/-- `run_custom_algorithm.py`, `measure_state`: `np.abs(state) ** 2`. -/
noncomputable def probabilities (state : List ℂ) : List ℝ :=
  state.map fun a => Complex.abs a ^ 2

/-- Python `format(n, "b")`: binary digits, most significant first (fuel-indexed
structural recursion; fuel `n` suffices for every `n ≥ 1`). -/
def binDigitsAux : ℕ → ℕ → List Char
  | 0, _ => []
  | fuel + 1, n => if n ≤ 1 then [if n = 0 then '0' else '1']
      else binDigitsAux fuel (n / 2) ++ [if n % 2 = 0 then '0' else '1']

/-- Python `format(n, "b")` for a natural number `n`. -/
def binString (n : ℕ) : String := ⟨binDigitsAux (n + 1) n⟩

/-- Left-pad with the character `0` to width `w` (Python's `0w` format flag for
a nonnegative integer). -/
def zfill (w : ℕ) (s : String) : String := ⟨List.replicate (w - s.length) '0'⟩ ++ s

/-- `run_custom_algorithm.py`: `measure_state`, with the index drawn by
`np.random.choice(len(probabilities), p=probabilities)` passed explicitly as
`outcome`; the returned bitstring is `format(outcome, "010b")`. -/
def measure_state (state : List ℂ) (outcome : ℕ) : String :=
  let _ := probabilities state
  zfill 10 (binString outcome)

/-- The pulse `circuit_to_pulses` builds for the instruction `X` on qubit 0. -/
def pulseX : Pulse :=
  { name := "X_0", duration := 20/1000000000, amplitude := 1, phase := 0
  , waveform := some constant_wave, channel := "d0" }

/-- A half-clock-long pulse (duration `1/2` against a clock of `1`), used to
exercise the rounding in the scheduler and the aligner. -/
def pulseHalf : Pulse :=
  { name := "half", duration := 1/2, amplitude := 1, phase := 0
  , waveform := none, channel := "d0" }

/-- `pulseHalf` scheduled on `[0, 1/2)` — what `PulseScheduler.schedule 1 [pulseHalf]`
produces. -/
def spHalf : ScheduledPulse := ⟨pulseHalf, 0, 1/2⟩

/-- Two `ScheduledPulse`s on the same channel conflict-free in schedule order:
if they share a channel, the earlier interval `[start, end)` ends no later
than the later one starts. -/
def channelDisjoint (a b : ScheduledPulse) : Prop :=
  a.pulse.channel = b.pulse.channel → a.end_time ≤ b.start_time

/-- The `end_time` of the last pulse on channel `c` in an already-emitted
schedule, `0` when the channel is untouched — the observable meaning of the
scheduler's `channel_end_times` dictionary. -/
def lastEndOn (c : String) (sched : List ScheduledPulse) : ℚ :=
  match (sched.filter fun sp => sp.pulse.channel = c).getLast? with
  | none => 0
  | some sp => sp.end_time

/-- The scheduling rule as the spec words it (with the rounding the code
actually performs): each pulse starts at `round(cursor / clock) * clock`, where
the cursor is the end time of the most recent same-channel pulse already
emitted (`0` initially), and ends `duration` later. -/
def scheduleSpecAux (clock : ℚ) (pre : List ScheduledPulse) : List Pulse → List ScheduledPulse
  | [] => []
  | p :: rest =>
    let start : ℚ := (pyRound (lastEndOn p.channel pre / clock) : ℚ) * clock
    let e := start + p.duration
    ⟨p, start, e⟩ :: scheduleSpecAux clock (pre ++ [⟨p, start, e⟩]) rest

/-- The specification-level scheduler: no cursor dictionary, the start of each
pulse is recomputed from the pulses already scheduled. -/
def scheduleSpec (clock : ℚ) (pulses : List Pulse) : List ScheduledPulse :=
  scheduleSpecAux clock [] pulses

/-- `true` exactly on `[EXEC]` events. -/
def isPlay : Event → Bool
  | .play _ _ _ _ => true
  | .wait _ => false

/-- The `[EXEC]` event a schedule record produces. -/
def playOf (p : SRec) : Event :=
  .play p.name (p.end_time_s - p.start_time_s) p.channel p.samples.length

/-- One executor step as the spec words it, on an (emitted-events, current-time)
accumulator: append a WAIT exactly when `start_time > current_time`, append the
PLAY, and set the current time to `end_time`. -/
def execStep (acc : List Event × ℚ) (p : SRec) : List Event × ℚ :=
  (acc.1 ++ (if acc.2 < p.start_time_s then [Event.wait (p.start_time_s - acc.2), playOf p]
             else [playOf p]),
   p.end_time_s)

/-- The executor's event stream as described by the spec: a left fold of
`execStep` starting from a given current time. -/
def execSpec (t₀ : ℚ) (l : List SRec) : List Event := (l.foldl execStep ([], t₀)).1

/-! ## Helper lemmas -/

theorem pyRound_intCast (m : ℤ) : pyRound (m : ℚ) = m := by
  norm_num [pyRound, Int.floor_intCast]

theorem pyRound_mul_cancel (m : ℤ) (c : ℚ) (hc : c ≠ 0) :
    pyRound ((m : ℚ) * c / c) = m := by
  rw [mul_div_cancel_right₀ _ hc, pyRound_intCast]

theorem scheduleAux_mem_shape (clock : ℚ) :
    ∀ (ps : List Pulse) (cur : String → ℚ) (sp : ScheduledPulse),
      sp ∈ scheduleAux clock cur ps →
      (∃ m : ℤ, sp.start_time = (m : ℚ) * clock) ∧
      sp.end_time = sp.start_time + sp.pulse.duration := by
  intro ps
  induction ps with
  | nil => intro cur sp h; simp [scheduleAux] at h
  | cons p rest ih =>
    intro cur sp h
    simp only [scheduleAux, List.mem_cons] at h
    rcases h with h | h
    · subst h
      exact ⟨⟨pyRound (cur p.channel / clock), rfl⟩, rfl⟩
    · exact ih _ _ h

/-! ## C4 -/

/-- C4: clock alignment is idempotent — for every schedule `S` and clock period
`τ > 0`, `align_to_hardware_clock (align_to_hardware_clock S τ) τ`
equals `align_to_hardware_clock S τ`. -/
theorem align_idempotent (S : List ScheduledPulse) (τ : ℚ) (hτ : 0 < τ) :
    align_to_hardware_clock (align_to_hardware_clock S τ) τ
      = align_to_hardware_clock S τ := by
  unfold align_to_hardware_clock
  rw [List.map_map]
  apply List.map_congr_left
  intro sp _
  cases sp with
  | mk p s e =>
    simp only [Function.comp, ScheduledPulse.mk.injEq]
    refine ⟨trivial, ?_, ?_⟩ <;>
      rw [pyRound_mul_cancel _ _ (ne_of_gt hτ)]

/-- Witness for C4 at a concrete one-pulse schedule and the source's default
clock period `1e-9`. -/
theorem align_idempotent_witness :
    0 < (1/1000000000 : ℚ) ∧
    align_to_hardware_clock
        (align_to_hardware_clock [⟨pulseX, 0, 1/2⟩] (1/1000000000)) (1/1000000000)
      = align_to_hardware_clock [⟨pulseX, 0, 1/2⟩] (1/1000000000) :=
  ⟨by norm_num, align_idempotent [⟨pulseX, 0, 1/2⟩] (1/1000000000) (by norm_num)⟩

/-! ## C5 -/

/-- C5 is false as stated: alignment does not preserve `end_time - start_time`.
A pulse scheduled on `[0, 1/2)` against a clock of `1` is snapped to `[0, 0)`:
its span shrinks from `1/2` to `0`, while the claim says the span is preserved. -/
theorem align_changes_span :
    align_to_hardware_clock [spHalf] 1 = [⟨pulseHalf, 0, 0⟩] ∧
    (0 : ℚ) - 0 ≠ spHalf.end_time - spHalf.start_time := by
  constructor
  · norm_num [align_to_hardware_clock, pyRound, spHalf]
    norm_num [Int.fract]
  · norm_num [spHalf]

/-- C5 (amended): every `ScheduledPulse` the scheduler emits satisfies
`end_time = start_time + pulse.duration`, and alignment never alters the
embedded `Pulse` (so never its `duration` field) — but the span
`end_time - start_time` itself is not preserved in general, because `start_time`
and `end_time` are snapped independently. -/
theorem schedule_invariant_align_preserves_pulse :
    (∀ (clock : ℚ) (pulses : List Pulse) (sp : ScheduledPulse),
        sp ∈ PulseScheduler.schedule clock pulses →
        sp.end_time = sp.start_time + sp.pulse.duration) ∧
    (∀ (S : List ScheduledPulse) (τ : ℚ),
        (align_to_hardware_clock S τ).map (·.pulse) = S.map (·.pulse)) := by
  constructor
  · intro clock pulses sp h
    exact (scheduleAux_mem_shape clock pulses _ sp h).2
  · intro S τ
    unfold align_to_hardware_clock
    rw [List.map_map]
    rfl

/-- Witness for C5 (amended) on the one-pulse schedule `[0, 1/2)`. -/
theorem schedule_invariant_witness :
    spHalf.end_time = spHalf.start_time + spHalf.pulse.duration ∧
    (align_to_hardware_clock [spHalf] 1).map (fun sp => sp.pulse)
        = [spHalf].map (fun sp => sp.pulse) := by
  constructor
  · apply schedule_invariant_align_preserves_pulse.1 1 [pulseHalf]
    have h : PulseScheduler.schedule 1 [pulseHalf] = [spHalf] := by
      norm_num [PulseScheduler.schedule, scheduleAux, pyRound, pulseHalf, spHalf]
    rw [h]
    exact List.mem_singleton.mpr rfl
  · exact schedule_invariant_align_preserves_pulse.2 [spHalf] 1

/-! ## C1 -/

theorem scheduleAux_disjoint (clock : ℚ) (hc : 0 < clock) :
    ∀ (ps : List Pulse) (cur : String → ℚ),
      (∀ p ∈ ps, ∃ k : ℕ, p.duration = (k : ℚ) * clock) →
      (∀ c, ∃ m : ℕ, cur c = (m : ℚ) * clock) →
      (∀ sp ∈ scheduleAux clock cur ps,
          cur sp.pulse.channel ≤ sp.start_time ∧ sp.start_time ≤ sp.end_time) ∧
      List.Pairwise channelDisjoint (scheduleAux clock cur ps) := by
  intro ps
  induction ps with
  | nil =>
    intro cur _ _
    refine ⟨?_, ?_⟩
    · intro sp h
      simp [scheduleAux] at h
    · exact List.Pairwise.nil
  | cons p rest ih =>
    intro cur hdur hcur
    obtain ⟨m, hm⟩ := hcur p.channel
    obtain ⟨k, hk⟩ := hdur p (List.mem_cons_self p rest)
    simp only [scheduleAux]
    have hstart : ((pyRound (cur p.channel / clock) : ℤ) : ℚ) * clock = cur p.channel := by
      rw [hm, show ((m : ℕ) : ℚ) * clock / clock = ((m : ℤ) : ℚ) * clock / clock by push_cast; ring,
        pyRound_mul_cancel _ _ (ne_of_gt hc)]
      push_cast; ring
    set s : ℚ := ((pyRound (cur p.channel / clock) : ℤ) : ℚ) * clock with hs_def
    set e : ℚ := s + p.duration with he_def
    have hdur_nonneg : 0 ≤ p.duration := by
      rw [hk]; exact mul_nonneg (Nat.cast_nonneg k) hc.le
    have hse : s ≤ e := by rw [he_def]; linarith
    set cur' : String → ℚ := fun c => if c = p.channel then e else cur c with hcupd
    have hcur' : ∀ c, ∃ m' : ℕ, cur' c = (m' : ℚ) * clock := by
      intro c
      by_cases hch : c = p.channel
      · refine ⟨m + k, ?_⟩
        simp only [hcupd]
        rw [if_pos hch, he_def, hstart, hm, hk]
        push_cast; ring
      · refine ⟨(hcur c).choose, ?_⟩
        simp only [hcupd]
        rw [if_neg hch]
        exact (hcur c).choose_spec
    have hmono : ∀ c, cur c ≤ cur' c := by
      intro c
      by_cases hch : c = p.channel
      · simp only [hcupd]
        rw [if_pos hch, hch, ← hstart]
        exact hse
      · simp only [hcupd]
        rw [if_neg hch]
    obtain ⟨ihmem, ihpair⟩ :=
      ih cur' (fun q hq => hdur q (List.mem_cons_of_mem _ hq)) hcur'
    constructor
    · intro sp hsp
      rcases List.mem_cons.mp hsp with h | h
      · subst h
        exact ⟨le_of_eq hstart.symm, hse⟩
      · obtain ⟨h1, h2⟩ := ihmem sp h
        exact ⟨le_trans (hmono _) h1, h2⟩
    · refine List.Pairwise.cons ?_ ihpair
      intro sp hsp hch
      have h1 := (ihmem sp hsp).1
      have hce : cur' sp.pulse.channel = e := by
        simp only [hcupd]
        rw [if_pos hch.symm]
      calc e = cur' sp.pulse.channel := hce.symm
        _ ≤ sp.start_time := h1

theorem scheduleAux_map_pulse (clock : ℚ) :
    ∀ (ps : List Pulse) (cur : String → ℚ),
      (scheduleAux clock cur ps).map (fun sp => sp.pulse) = ps := by
  intro ps
  induction ps with
  | nil => intro cur; rfl
  | cons p rest ih =>
    intro cur
    simp only [scheduleAux, List.map_cons]
    rw [ih]

/-- C1 is false as stated: with a clock resolution of `1`, two same-channel
pulses of duration `2/5` are both scheduled on `[0, 2/5)` — `round(2/5) = 0`
pulls the second start back below the first pulse's end, so the two
half-open intervals coincide (and overlap) instead of being disjoint. -/
theorem schedule_overlap_counterexample :
    PulseScheduler.schedule 1 [⟨"a", 2/5, 1, 0, none, "d0"⟩, ⟨"b", 2/5, 1, 0, none, "d0"⟩]
      = [⟨⟨"a", 2/5, 1, 0, none, "d0"⟩, 0, 2/5⟩, ⟨⟨"b", 2/5, 1, 0, none, "d0"⟩, 0, 2/5⟩] ∧
    ¬ List.Pairwise channelDisjoint
        (PulseScheduler.schedule 1
          [⟨"a", 2/5, 1, 0, none, "d0"⟩, ⟨"b", 2/5, 1, 0, none, "d0"⟩]) := by
  have h :
      PulseScheduler.schedule 1 [⟨"a", 2/5, 1, 0, none, "d0"⟩, ⟨"b", 2/5, 1, 0, none, "d0"⟩]
        = [⟨⟨"a", 2/5, 1, 0, none, "d0"⟩, 0, 2/5⟩, ⟨⟨"b", 2/5, 1, 0, none, "d0"⟩, 0, 2/5⟩] := by
    norm_num [PulseScheduler.schedule, scheduleAux, pyRound]
  refine ⟨h, ?_⟩
  rw [h]
  intro hpair
  have hd := (List.pairwise_cons.mp hpair).1 _ (List.mem_singleton.mpr rfl)
  have : (2/5 : ℚ) ≤ 0 := hd rfl
  norm_num at this

/-- C1 (amended): when every pulse duration is a natural multiple of the clock
resolution (as all the gate-library durations are of the default `1e-9` clock),
the scheduler's per-channel `[start_time, end_time)` intervals are pairwise
disjoint in schedule order, and the output lists the input pulses in input
order (FIFO) unconditionally. -/
theorem schedule_channel_disjoint_fifo (clock : ℚ) (pulses : List Pulse)
    (hc : 0 < clock) (hdur : ∀ p ∈ pulses, ∃ k : ℕ, p.duration = (k : ℚ) * clock) :
    List.Pairwise channelDisjoint (PulseScheduler.schedule clock pulses) ∧
    (PulseScheduler.schedule clock pulses).map (fun sp => sp.pulse) = pulses := by
  constructor
  · exact (scheduleAux_disjoint clock hc pulses _ hdur
      (fun c => ⟨0, by norm_num⟩)).2
  · exact scheduleAux_map_pulse clock pulses _

/-- Witness for C1 (amended): two sequential `X` pulses on channel `d0` against
the default `1e-9` clock. -/
theorem schedule_channel_disjoint_fifo_witness :
    (0 < (1/1000000000 : ℚ) ∧
      ∀ p ∈ [pulseX, pulseX], ∃ k : ℕ, p.duration = (k : ℚ) * (1/1000000000)) ∧
    List.Pairwise channelDisjoint (PulseScheduler.schedule (1/1000000000) [pulseX, pulseX]) ∧
    (PulseScheduler.schedule (1/1000000000) [pulseX, pulseX]).map (fun sp => sp.pulse)
      = [pulseX, pulseX] := by
  have hdur : ∀ p ∈ [pulseX, pulseX], ∃ k : ℕ, p.duration = (k : ℚ) * (1/1000000000) := by
    intro p hp
    have hp' : p = pulseX := by
      rcases List.mem_cons.mp hp with h | h
      · exact h
      · exact List.mem_singleton.mp h
    subst hp'
    exact ⟨20, by norm_num [pulseX]⟩
  exact ⟨⟨by norm_num, hdur⟩,
    schedule_channel_disjoint_fifo (1/1000000000) [pulseX, pulseX] (by norm_num) hdur⟩

/-! ## C2 and C10 -/

theorem lastEndOn_append_same (c : String) (pre : List ScheduledPulse)
    (sp : ScheduledPulse) (h : sp.pulse.channel = c) :
    lastEndOn c (pre ++ [sp]) = sp.end_time := by
  unfold lastEndOn
  rw [List.filter_append]
  simp [h]

theorem lastEndOn_append_other (c : String) (pre : List ScheduledPulse)
    (sp : ScheduledPulse) (h : ¬ sp.pulse.channel = c) :
    lastEndOn c (pre ++ [sp]) = lastEndOn c pre := by
  unfold lastEndOn
  rw [List.filter_append]
  simp [h]

theorem scheduleAux_eq_spec (clock : ℚ) :
    ∀ (ps : List Pulse) (cur : String → ℚ) (pre : List ScheduledPulse),
      (∀ c, cur c = lastEndOn c pre) →
      scheduleAux clock cur ps = scheduleSpecAux clock pre ps := by
  intro ps
  induction ps with
  | nil => intro cur pre _; rfl
  | cons p rest ih =>
    intro cur pre hinv
    simp only [scheduleAux, scheduleSpecAux]
    rw [hinv p.channel]
    congr 1
    apply ih
    intro c
    by_cases hch : c = p.channel
    · subst hch
      rw [lastEndOn_append_same p.channel pre _ rfl, if_pos rfl]
    · rw [lastEndOn_append_other c pre _ (fun h => hch h.symm), if_neg hch]
      exact hinv c

/-- C2 is false as stated: the scheduler does not start a pulse at the raw
per-channel cursor.  With a clock resolution of `1`, the second of two
`1/2`-second pulses on `d0` starts at `round(1/2) * 1 = 0` (round half to
even), not at the cursor value `1/2` left by the first pulse. -/
theorem schedule_start_rounds_cursor :
    PulseScheduler.schedule 1 [pulseHalf, pulseHalf]
      = [⟨pulseHalf, 0, 1/2⟩, ⟨pulseHalf, 0, 1/2⟩] ∧
    (0 : ℚ) ≠ 1/2 := by
  constructor
  · norm_num [PulseScheduler.schedule, scheduleAux, pyRound, pulseHalf]
  · norm_num

/-- C2 (amended): the scheduler packs FIFO per channel with the cursor passed
through `round(cursor / clock) * clock`: it computes exactly `scheduleSpec`,
where each pulse starts at the rounded end time of the most recent same-channel
pulse (cursor `0` initially) and ends `duration` later.  In particular two
sequential 20 ns `X` pulses on one channel land on `[0, 20)` ns and
`[20, 40)` ns with zero gap. -/
theorem schedule_eq_spec_zero_gap :
    (∀ (clock : ℚ) (pulses : List Pulse),
        PulseScheduler.schedule clock pulses = scheduleSpec clock pulses) ∧
    PulseScheduler.schedule (1/1000000000) [pulseX, pulseX]
      = [⟨pulseX, 0, 20/1000000000⟩, ⟨pulseX, 20/1000000000, 40/1000000000⟩] := by
  constructor
  · intro clock pulses
    exact scheduleAux_eq_spec clock pulses _ [] (fun c => rfl)
  · norm_num [PulseScheduler.schedule, scheduleAux, pyRound, pulseX]

/-- C10: every start time the scheduler emits is already on the clock grid —
an integer multiple of the clock resolution, obtained by rounding the previous
same-channel end time (that is what `scheduleSpec` recomputes) — with
`end_time = start_time + duration`, while some end times lie off the grid
(e.g. a pulse of duration `clock / 2`). -/
theorem schedule_start_on_grid (clock : ℚ) (pulses : List Pulse) (hc : 0 < clock) :
    (∀ sp ∈ PulseScheduler.schedule clock pulses,
        (∃ m : ℤ, sp.start_time = (m : ℚ) * clock) ∧
        sp.end_time = sp.start_time + sp.pulse.duration) ∧
    PulseScheduler.schedule clock pulses = scheduleSpec clock pulses ∧
    (∃ (ps : List Pulse) (sp : ScheduledPulse),
        sp ∈ PulseScheduler.schedule clock ps ∧
        ∀ m : ℤ, sp.end_time ≠ (m : ℚ) * clock) := by
  refine ⟨fun sp h => scheduleAux_mem_shape clock pulses _ sp h,
    scheduleAux_eq_spec clock pulses _ [] (fun c => rfl), ?_⟩
  refine ⟨[⟨"p", clock/2, 1, 0, none, "d0"⟩],
    ⟨⟨"p", clock/2, 1, 0, none, "d0"⟩, 0, clock/2⟩, ?_, ?_⟩
  · have h : PulseScheduler.schedule clock [⟨"p", clock/2, 1, 0, none, "d0"⟩]
        = [⟨⟨"p", clock/2, 1, 0, none, "d0"⟩, 0, clock/2⟩] := by
      norm_num [PulseScheduler.schedule, scheduleAux, pyRound]
    rw [h]
    exact List.mem_singleton.mpr rfl
  · intro m hm
    have h1 : ((2 * m - 1 : ℤ) : ℚ) * clock = 0 := by
      push_cast
      have hm' : (clock / 2 : ℚ) = (m : ℚ) * clock := hm
      linarith
    rcases mul_eq_zero.mp h1 with h | h
    · have h3 : (2 * m - 1 : ℤ) = 0 := by exact_mod_cast h
      omega
    · exact absurd h (ne_of_gt hc)

/-- Witness for C10 at the default clock `1e-9` and one `X` pulse. -/
theorem schedule_start_on_grid_witness :
    0 < (1/1000000000 : ℚ) ∧
    (∀ sp ∈ PulseScheduler.schedule (1/1000000000) [pulseX],
        (∃ m : ℤ, sp.start_time = (m : ℚ) * (1/1000000000)) ∧
        sp.end_time = sp.start_time + sp.pulse.duration) :=
  ⟨by norm_num,
    fun sp h => (schedule_start_on_grid (1/1000000000) [pulseX] (by norm_num)).1 sp h⟩

/-! ## C3 -/

theorem insertByStart_perm (r : SRec) :
    ∀ l : List SRec, (insertByStart r l).Perm (r :: l) := by
  intro l
  induction l with
  | nil => exact List.Perm.refl _
  | cons x xs ih =>
    simp only [insertByStart]
    by_cases h : x.start_time_s < r.start_time_s
    · rw [if_pos h]
      exact (List.Perm.cons x ih).trans (List.Perm.swap r x xs)
    · rw [if_neg h]

theorem sortByStart_perm : ∀ l : List SRec, (sortByStart l).Perm l := by
  intro l
  induction l with
  | nil => exact List.Perm.refl _
  | cons x xs ih =>
    simp only [sortByStart]
    exact (insertByStart_perm x (sortByStart xs)).trans (List.Perm.cons x ih)

theorem insertByStart_sorted (r : SRec) :
    ∀ l : List SRec,
      List.Pairwise (fun a b => a.start_time_s ≤ b.start_time_s) l →
      List.Pairwise (fun a b => a.start_time_s ≤ b.start_time_s) (insertByStart r l) := by
  intro l
  induction l with
  | nil => intro _; simp [insertByStart]
  | cons x xs ih =>
    intro hsorted
    have hx := List.pairwise_cons.mp hsorted
    simp only [insertByStart]
    by_cases h : x.start_time_s < r.start_time_s
    · rw [if_pos h]
      refine List.Pairwise.cons ?_ (ih hx.2)
      intro y hy
      rcases List.mem_cons.mp ((insertByStart_perm r xs).mem_iff.mp hy) with hy' | hy'
      · rw [hy']
        exact le_of_lt h
      · exact hx.1 y hy'
    · rw [if_neg h]
      have hrx : r.start_time_s ≤ x.start_time_s := not_lt.mp h
      refine List.Pairwise.cons ?_ hsorted
      intro y hy
      rcases List.mem_cons.mp hy with hy' | hy'
      · rw [hy']
        exact hrx
      · exact le_trans hrx (hx.1 y hy')

theorem sortByStart_sorted :
    ∀ l : List SRec,
      List.Pairwise (fun a b => a.start_time_s ≤ b.start_time_s) (sortByStart l) := by
  intro l
  induction l with
  | nil => exact List.Pairwise.nil
  | cons x xs ih =>
    simp only [sortByStart]
    exact insertByStart_sorted x (sortByStart xs) ih

theorem executeFrom_plays :
    ∀ (l : List SRec) (t : ℚ), (executeFrom t l).filter isPlay = l.map playOf := by
  intro l
  induction l with
  | nil => intro t; rfl
  | cons p rest ih =>
    intro t
    simp only [executeFrom, List.map_cons]
    rw [List.filter_append]
    by_cases h : t < p.start_time_s
    · rw [if_pos h]
      simp [isPlay, playOf, ih]
    · rw [if_neg h]
      simp [isPlay, playOf, ih]

theorem execSpec_foldl_aux :
    ∀ (l : List SRec) (acc : List Event) (t : ℚ),
      (l.foldl execStep (acc, t)).1 = acc ++ executeFrom t l := by
  intro l
  induction l with
  | nil => intro acc t; simp [executeFrom]
  | cons p rest ih =>
    intro acc t
    simp only [List.foldl_cons, executeFrom]
    by_cases h : t < p.start_time_s
    · rw [show execStep (acc, t) p
          = (acc ++ [Event.wait (p.start_time_s - t), playOf p], p.end_time_s) by
            simp [execStep, if_pos h]]
      rw [ih]
      simp [playOf, if_pos h]
    · rw [show execStep (acc, t) p = (acc ++ [playOf p], p.end_time_s) by
            simp [execStep, if_neg h]]
      rw [ih]
      simp [playOf, if_neg h]

theorem execSpec_eq_executeFrom (t : ℚ) (l : List SRec) :
    execSpec t l = executeFrom t l := by
  unfold execSpec
  rw [execSpec_foldl_aux]
  rfl

/-- C3 is false as stated: the executor re-sorts.  `load_schedule` sorts the
loaded records by `start_time_s`, so for an input list whose records are out
of start order the PLAY events come out in sorted order, not input order:
here the input lists `a` (start 10 s) before `b` (start 0 s), yet `b` plays
first. -/
theorem executor_resorts_counterexample :
    (PulseExecutor.execute (load_schedule
        [⟨"a", "d0", 10, 11, []⟩, ⟨"b", "d1", 0, 1, []⟩])).filter isPlay
      = [playOf ⟨"b", "d1", 0, 1, []⟩, playOf ⟨"a", "d0", 10, 11, []⟩] ∧
    [playOf ⟨"b", "d1", 0, 1, []⟩, playOf ⟨"a", "d0", 10, 11, []⟩]
      ≠ ([⟨"a", "d0", 10, 11, []⟩, ⟨"b", "d1", 0, 1, []⟩] : List SRec).map playOf := by
  constructor
  · norm_num [PulseExecutor.execute, load_schedule, sortByStart, insertByStart,
      executeFrom, isPlay, playOf, List.filter]
  · simp [playOf]

/-- C3 (amended): `load_schedule` first re-sorts the records into ascending
`start_time_s` order (a stable sort — the loaded list is a permutation of the
input, sorted by start time); `execute` then emits exactly one PLAY per record
in that sorted order, a WAIT exactly when `start_time > current_time` (of size
`start_time - current_time`), and carries `current_time = end_time` forward —
the fold `execSpec` stated in exactly those words. -/
theorem executor_sorted_events (l : List SRec) (t0 : ℚ) :
    (load_schedule l).Perm l ∧
    List.Pairwise (fun a b => a.start_time_s ≤ b.start_time_s) (load_schedule l) ∧
    (PulseExecutor.execute (load_schedule l)).filter isPlay
      = (load_schedule l).map playOf ∧
    executeFrom t0 (load_schedule l) = execSpec t0 (load_schedule l) :=
  ⟨sortByStart_perm l, sortByStart_sorted l, executeFrom_plays _ _,
    (execSpec_eq_executeFrom t0 _).symm⟩

/-! ## C6 -/

/-- C6: `build_waveform` emits exactly `max(1, floor(duration * fs))` samples
(`int` truncation and `floor` agree under the outer `max` with `1`), and a
zero-duration pulse yields exactly one sample. -/
theorem build_waveform_length (sp : ScheduledPulse) (fs : ℚ) (hfs : 0 < fs) :
    ((build_waveform sp fs).length : ℤ) = max 1 ⌊sp.pulse.duration * fs⌋ ∧
    (sp.pulse.duration = 0 → (build_waveform sp fs).length = 1) := by
  have hlen : (build_waveform sp fs).length = numSamples sp fs := by
    unfold build_waveform buildTimes
    rw [List.length_map, List.length_map, List.length_range]
  constructor
  · rw [hlen]
    unfold numSamples pyInt
    by_cases h : 0 ≤ sp.pulse.duration * fs
    · rw [if_pos h]
      have h1 : (1 : ℤ) ≤ max 1 ⌊sp.pulse.duration * fs⌋ := le_max_left _ _
      rw [Int.toNat_of_nonneg (le_trans zero_le_one h1)]
    · rw [if_neg h]
      have hceil : ⌈sp.pulse.duration * fs⌉ ≤ (0 : ℤ) :=
        Int.ceil_le.mpr (by push_cast; exact le_of_lt (not_le.mp h))
      have hfloor : ⌊sp.pulse.duration * fs⌋ ≤ 0 := le_trans (Int.floor_le_ceil _) hceil
      rw [max_eq_left (by omega), max_eq_left (by omega)]
      rfl
  · intro h0
    rw [hlen]
    unfold numSamples pyInt
    rw [h0]
    norm_num

/-- Witness for C6: an `X` pulse sampled at `1 GHz` gives 20 samples. -/
theorem build_waveform_length_witness :
    0 < (1000000000 : ℚ) ∧
    ((build_waveform ⟨pulseX, 0, 20/1000000000⟩ 1000000000).length : ℤ)
      = max 1 ⌊pulseX.duration * 1000000000⌋ ∧
    (pulseX.duration = 0 →
      (build_waveform ⟨pulseX, 0, 20/1000000000⟩ 1000000000).length = 1) :=
  ⟨by norm_num,
    (build_waveform_length ⟨pulseX, 0, 20/1000000000⟩ 1000000000 (by norm_num)).1,
    (build_waveform_length ⟨pulseX, 0, 20/1000000000⟩ 1000000000 (by norm_num)).2⟩

/-! ## C7 -/

/-- C7 is false as stated: the sampling instants are `k * duration / n`, not
`k / fs`.  For a pulse of duration `5` s sampled at `fs = 1/2` Hz the builder
takes `n = max(1, int(5/2)) = 2` samples at `[0, 5/2]` (the `linspace` step is
`duration / n = 5/2`), while the claim's `t_k = k / fs` puts the second sample
at `2` s. -/
theorem waveform_times_counterexample :
    (0 : ℚ) < 1/2 ∧ (0 : ℚ) < 5 ∧
    numSamples ⟨⟨"g", 5, 1, 0, none, "d0"⟩, 0, 5⟩ (1/2) = 2 ∧
    buildTimes ⟨⟨"g", 5, 1, 0, none, "d0"⟩, 0, 5⟩ (1/2) = [0, 5/2] ∧
    (List.range 2).map (fun (k : ℕ) => (k : ℚ) / (1/2)) = [0, 2] ∧
    buildTimes ⟨⟨"g", 5, 1, 0, none, "d0"⟩, 0, 5⟩ (1/2)
      ≠ (List.range 2).map (fun (k : ℕ) => (k : ℚ) / (1/2)) := by
  have hn : numSamples ⟨⟨"g", 5, 1, 0, none, "d0"⟩, 0, 5⟩ (1/2) = 2 := by
    norm_num [numSamples, pyInt]
    rfl
  have ht : buildTimes ⟨⟨"g", 5, 1, 0, none, "d0"⟩, 0, 5⟩ (1/2) = [0, 5/2] := by
    rw [buildTimes, hn]
    norm_num [List.range_succ]
  have hclaim : (List.range 2).map (fun (k : ℕ) => (k : ℚ) / (1/2)) = [0, 2] := by
    norm_num [List.range_succ]
  refine ⟨by norm_num, by norm_num, hn, ht, hclaim, ?_⟩
  rw [ht, hclaim]
  intro h
  simp only [List.cons.injEq] at h
  norm_num at h

/-- C7 (amended): for a pulse of duration at least the `1e-12` guard, the
`k`-th of the `n = max(1, int(duration * fs))` samples is taken at
`t_k = k * duration / n` (the `linspace` grid, not `k / fs`) and equals
`amplitude * envelope(k / n) * cos(phase)`: the normalized time
`t_k / max(1e-12, duration)` collapses to `k / n` and the `[0, 1]` clamp is a
no-op, with the envelope given by the pulse's optional waveform callable
(`constant_wave` is `1`, `gaussian_wave` the `σ = 0.15` gaussian), or the
constant `1` when no waveform is set. -/
theorem build_waveform_sample_values (sp : ScheduledPulse) (fs : ℚ)
    (hd : (1/1000000000000 : ℚ) ≤ sp.pulse.duration)
    (k : ℕ) (hk : k < numSamples sp fs) :
    (build_waveform sp fs).get? k = some
      ((sp.pulse.amplitude : ℝ) *
        (match sp.pulse.waveform with
         | some f => f ((k : ℝ) / (numSamples sp fs : ℝ))
         | none => 1) * Real.cos (sp.pulse.phase : ℝ)) := by
  have hn : 0 < numSamples sp fs := lt_of_le_of_lt (Nat.zero_le k) hk
  have hd0 : (0 : ℚ) < sp.pulse.duration := lt_of_lt_of_le (by norm_num) hd
  have hget : (build_waveform sp fs).get? k
      = some (sp.pulse.sample
          ((k : ℚ) * sp.pulse.duration / (numSamples sp fs : ℚ))) := by
    unfold build_waveform buildTimes
    rw [List.get?_map, List.get?_map, List.get?_range hk]
    rfl
  rw [hget]
  congr 1
  unfold Pulse.sample
  have hmax : max (1e-12 : ℝ) ((sp.pulse.duration : ℚ) : ℝ)
      = ((sp.pulse.duration : ℚ) : ℝ) := by
    apply max_eq_right
    rw [show (1e-12 : ℝ) = ((1/1000000000000 : ℚ) : ℝ) by norm_num]
    exact_mod_cast hd
  have harg : (((k : ℚ) * sp.pulse.duration / (numSamples sp fs : ℚ) : ℚ) : ℝ)
      / max (1e-12 : ℝ) ((sp.pulse.duration : ℚ) : ℝ)
      = (k : ℝ) / (numSamples sp fs : ℝ) := by
    rw [hmax]
    have hdr : ((sp.pulse.duration : ℚ) : ℝ) ≠ 0 := by
      exact_mod_cast ne_of_gt hd0
    push_cast
    field_simp
    ring
  have hfrac0 : (0 : ℝ) ≤ (k : ℝ) / (numSamples sp fs : ℝ) :=
    div_nonneg (Nat.cast_nonneg k) (Nat.cast_nonneg _)
  have hfrac1 : (k : ℝ) / (numSamples sp fs : ℝ) ≤ 1 := by
    rw [div_le_one (by exact_mod_cast hn)]
    exact_mod_cast le_of_lt hk
  have hclamp : clamp01 ((k : ℝ) / (numSamples sp fs : ℝ))
      = (k : ℝ) / (numSamples sp fs : ℝ) := by
    unfold clamp01
    rw [min_eq_right hfrac1, max_eq_right hfrac0]
  cases hw : sp.pulse.waveform with
  | none => simp [hw]
  | some f =>
    simp only [hw]
    rw [harg, hclamp]

/-- Witness for C7 (amended): the single sample of the `[0, 1/2)` pulse
(no waveform set) sampled at `2` Hz. -/
theorem build_waveform_sample_values_witness :
    (1/1000000000000 : ℚ) ≤ spHalf.pulse.duration ∧
    0 < numSamples spHalf 2 ∧
    (build_waveform spHalf 2).get? 0 = some
      ((spHalf.pulse.amplitude : ℝ) * 1 * Real.cos (spHalf.pulse.phase : ℝ)) := by
  refine ⟨by norm_num [spHalf, pulseHalf], ?_, ?_⟩
  · norm_num [numSamples, pyInt, spHalf, pulseHalf]
  · exact build_waveform_sample_values spHalf 2
      (by norm_num [spHalf, pulseHalf]) 0
      (by norm_num [numSamples, pyInt, spHalf, pulseHalf])

/-! ## C8 -/

/-- C8: compilation fails (with the `"Gate ... has no pulse template"` error,
a `ValueError` in the source) exactly when some instruction's gate has no
template in `GATE_LIBRARY`; otherwise it yields one pulse per instruction in
instruction order, the `i`-th pulse carrying channel `"d" + qubit` and name
`gate + "_" + qubit` of the `i`-th instruction. -/
theorem circuit_to_pulses_spec (circuit : List Instruction) :
    ((∃ msg, circuit_to_pulses circuit = .error msg) ↔
      ∃ inst ∈ circuit, GATE_LIBRARY.lookup inst.gate = none) ∧
    ∀ ps, circuit_to_pulses circuit = .ok ps →
      ps.length = circuit.length ∧
      ∀ (i : ℕ) (hi : i < ps.length) (hi' : i < circuit.length),
        (ps.get ⟨i, hi⟩).channel = "d" ++ toString (circuit.get ⟨i, hi'⟩).qubit ∧
        (ps.get ⟨i, hi⟩).name
          = (circuit.get ⟨i, hi'⟩).gate ++ "_" ++ toString (circuit.get ⟨i, hi'⟩).qubit := by
  induction circuit with
  | nil =>
    constructor
    · constructor
      · rintro ⟨msg, h⟩
        simp [circuit_to_pulses] at h
      · rintro ⟨inst, h, _⟩
        simp at h
    · intro ps h
      have hps : ps = [] := by
        simpa [circuit_to_pulses] using h.symm
      subst hps
      exact ⟨rfl, fun i hi _ => absurd hi (by simp at hi)⟩
  | cons inst rest ih =>
    cases hlook : GATE_LIBRARY.lookup inst.gate with
    | none =>
      constructor
      · constructor
        · intro _
          exact ⟨inst, List.mem_cons_self _ _, hlook⟩
        · intro _
          refine ⟨"Gate " ++ inst.gate ++ " has no pulse template", ?_⟩
          simp [circuit_to_pulses, hlook]
      · intro ps h
        simp [circuit_to_pulses, hlook] at h
    | some tmpl =>
      cases hrec : circuit_to_pulses rest with
      | error e =>
        constructor
        · constructor
          · intro _
            obtain ⟨inst', hmem, h'⟩ := (ih.1).mp ⟨e, hrec⟩
            exact ⟨inst', List.mem_cons_of_mem _ hmem, h'⟩
          · intro _
            exact ⟨e, by simp [circuit_to_pulses, hlook, hrec]⟩
        · intro ps h
          simp [circuit_to_pulses, hlook, hrec] at h
      | ok ps' =>
        constructor
        · constructor
          · rintro ⟨msg, h⟩
            simp [circuit_to_pulses, hlook, hrec] at h
          · rintro ⟨inst', hmem, h'⟩
            rcases List.mem_cons.mp hmem with h'' | h''
            · rw [h''] at h'
              simp [h'] at hlook
            · obtain ⟨msg, hmsg⟩ := (ih.1).mpr ⟨inst', h'', h'⟩
              rw [hmsg] at hrec
              simp at hrec
        · intro ps h
          have hps : ps =
              { name := inst.gate ++ "_" ++ toString inst.qubit
              , duration := tmpl.duration
              , amplitude := tmpl.amplitude
              , phase := 0
              , waveform := tmpl.waveform
              , channel := "d" ++ toString inst.qubit } :: ps' := by
            have h' := h
            simp only [circuit_to_pulses, hlook, hrec] at h'
            exact (Except.ok.injEq _ _).mp h'.symm
          subst hps
          obtain ⟨hlen', hidx⟩ := (ih.2) ps' hrec
          constructor
          · simp [hlen']
          · intro i hi hi'
            cases i with
            | zero => exact ⟨rfl, rfl⟩
            | succ j =>
              have hj : j < ps'.length := by simpa using hi
              have hj' : j < rest.length := by simpa using hi'
              exact hidx j hj hj'

/-- Witness for C8: the one-instruction circuit `X` on qubit 0 compiles to
`[pulseX]` with channel `d0`, while a `Q` gate has no template and errors. -/
theorem circuit_to_pulses_spec_witness :
    ([pulseX].length = ([⟨"X", 0⟩] : List Instruction).length ∧
      pulseX.channel = "d" ++ toString (0 : ℕ)) ∧
    (∃ msg, circuit_to_pulses [⟨"Q", 0⟩] = .error msg) := by
  constructor
  · have h := (circuit_to_pulses_spec [⟨"X", 0⟩]).2 [pulseX] rfl
    exact ⟨h.1, ((h.2 0 (by norm_num) (by norm_num)).1 : _)⟩
  · exact (circuit_to_pulses_spec [⟨"Q", 0⟩]).1.mpr ⟨⟨"Q", 0⟩, by simp, rfl⟩

/-! ## C9 -/

theorem binDigitsAux_length_le :
    ∀ (fuel n w : ℕ), n < 2 ^ (w + 1) → (binDigitsAux fuel n).length ≤ w + 1 := by
  intro fuel
  induction fuel with
  | zero => intro n w _; simp [binDigitsAux]
  | succ fuel ih =>
    intro n w hn
    simp only [binDigitsAux]
    by_cases h : n ≤ 1
    · rw [if_pos h]
      simp
    · rw [if_neg h]
      rw [List.length_append]
      cases w with
      | zero =>
        norm_num at hn
        omega
      | succ w' =>
        have hdiv : n / 2 < 2 ^ (w' + 1) := by
          rw [Nat.div_lt_iff_lt_mul (by norm_num : 0 < 2)]
          calc n < 2 ^ (w' + 2) := hn
            _ = 2 ^ (w' + 1) * 2 := by rw [pow_succ]
        have := ih (n / 2) w' hdiv
        simp only [List.length_cons, List.length_nil]
        omega

theorem binString_length_le (n w : ℕ) (h : n < 2 ^ (w + 1)) :
    (binString n).length ≤ w + 1 := by
  show (binDigitsAux (n + 1) n).length ≤ w + 1
  exact binDigitsAux_length_le (n + 1) n w h

theorem zfill_length (w : ℕ) (s : String) : (zfill w s).length = max w s.length := by
  unfold zfill
  rw [String.length_append]
  show (List.replicate (w - s.length) '0').length + s.length = max w s.length
  rw [List.length_replicate]
  omega

/-- C9 is false as stated: the bitstring is zero-padded to the hard-coded
width 10 (`format(outcome, "010b")`), not to the qubit count.  For `N = 2`
qubits the amplitude vector `[1, 0, 0, 0]` has squared-magnitude probabilities
`[1, 0, 0, 0]`, outcome index `0` is the only one with positive probability,
and the returned string has length `10 ≠ 2`. -/
theorem measure_state_pad_counterexample :
    ([(1 : ℂ), 0, 0, 0].length = 2 ^ 2) ∧
    probabilities [(1 : ℂ), 0, 0, 0] = [1, 0, 0, 0] ∧
    (measure_state [(1 : ℂ), 0, 0, 0] 0).length = 10 ∧
    ¬ (measure_state [(1 : ℂ), 0, 0, 0] 0).length = 2 := by
  refine ⟨by norm_num, ?_, by decide, by decide⟩
  simp [probabilities]

/-- C9 (amended): `measure_state` computes the probabilities as squared
magnitudes of the amplitudes and returns the sampled outcome's binary
representation zero-padded to the fixed width 10 — so the returned length
equals the qubit count exactly when `N = 10` (the runner's qubit count), as
here for any `2^10`-long state and any outcome the sampler can return. -/
theorem measure_state_bits (state : List ℂ) (outcome : ℕ)
    (hstate : state.length = 2 ^ 10) (houtcome : outcome < state.length) :
    probabilities state = state.map (fun a => Complex.abs a ^ 2) ∧
    (measure_state state outcome).length = 10 := by
  refine ⟨rfl, ?_⟩
  show (zfill 10 (binString outcome)).length = 10
  rw [zfill_length]
  have h1 : outcome < 2 ^ 10 := hstate ▸ houtcome
  have hle : (binString outcome).length ≤ 10 := binString_length_le outcome 9 h1
  omega

/-- Witness for C9 (amended): a `2^10`-long state and outcome `5`. -/
theorem measure_state_bits_witness :
    (List.replicate 1024 (0 : ℂ)).length = 2 ^ 10 ∧
    5 < (List.replicate 1024 (0 : ℂ)).length ∧
    (measure_state (List.replicate 1024 (0 : ℂ)) 5).length = 10 := by
  have h1 : (List.replicate 1024 (0 : ℂ)).length = 2 ^ 10 := by norm_num
  exact ⟨h1, by norm_num,
    (measure_state_bits (List.replicate 1024 (0 : ℂ)) 5 h1 (by norm_num)).2⟩
